import Mathlib

/-!
# Safepoint registry and embedder tracer bridge

A shallow embedding of `IsolateSafepoint` (deps/v8/src/heap/safepoint.h): the
intrusive doubly-linked list of `LocalHeap` objects, the registry mutex, the
barrier and the safepoint scope counter, together with the
`LocalEmbedderHeapTracer` bridge exercised by
deps/v8/test/unittests/heap/embedder-tracing-unittest.cc.

Pointers to `LocalHeap` objects are addresses (`Addr`), `nullptr` is `none`,
and the objects live in a memory `Addr → LocalHeap`.  Operations that can
block on a mutex, trip an assertion, or loop return a `Result`.
-/

namespace V8

/-- The address of a `LocalHeap` object; a `LocalHeap*` is an `Option Addr`. -/
abbrev Addr := Nat

/-- The identity of a thread. -/
abbrev ThreadId := Nat

/-- How a call ends: it returns, it waits on a lock held by someone else, it
trips a fatal assertion, or the model ran out of loop fuel. -/
inductive Result (α : Type) where
  | done (a : α)
  | blocked
  | fatal
  | outOfFuel
deriving DecidableEq, Repr

/-- The two link fields of a `LocalHeap` (`prev_`, `next_`), the only fields
the registry reads or writes. -/
structure LocalHeap where
  prev_ : Option Addr
  next_ : Option Addr
deriving DecidableEq, Repr

/-- Modelled from the spec: `base::Mutex` (src/base/platform/mutex.h is not
among the sources).  A mutex records the thread holding it, if any. -/
structure Mutex where
  owner : Option ThreadId
deriving DecidableEq, Repr

/-- Modelled from the spec: `base::Mutex::Lock`.  A free mutex becomes owned by
the caller; a held mutex makes the caller wait (`none`): the mutex is not
recursive, so this is also the answer for its current owner. -/
def Mutex.Lock (m : Mutex) (t : ThreadId) : Option Mutex :=
  match m.owner with
  | none => some { owner := some t }
  | some _ => none

/-- Modelled from the spec: `base::Mutex::Unlock`. -/
def Mutex.Unlock (_m : Mutex) : Mutex := { owner := none }

/-- Modelled from the spec: `base::Mutex::AssertHeld`, as the test it asserts. -/
def Mutex.AssertHeld (m : Mutex) : Bool := m.owner.isSome

/-- The `IsolateSafepoint::Barrier` fields `armed_` and `stopped_`.  The `int`
counter `stopped_` counts parked threads and is kept as a natural number. -/
structure Barrier where
  armed_ : Bool
  stopped_ : Nat
deriving DecidableEq, Repr

/-- The `IsolateSafepoint` object together with the memory its `LocalHeap`
pointers point into (`local_heaps`) and the caller-side data the callbacks of
`AddLocalHeap` / `RemoveLocalHeap` work on (`env`).  The `int` counter
`active_safepoint_scopes_` counts live scopes and is kept as a natural number;
the `Heap* heap_` field plays no role here and is left out. -/
structure IsolateSafepoint (σ : Type) where
  barrier_ : Barrier
  local_heaps_mutex_ : Mutex
  local_heaps_head_ : Option Addr
  active_safepoint_scopes_ : Nat
  local_heaps : Addr → LocalHeap
  env : σ

/-- The write `a->prev_ = v`. -/
def setPrev (mem : Addr → LocalHeap) (a : Addr) (v : Option Addr) : Addr → LocalHeap :=
  fun x => if x = a then { mem x with prev_ := v } else mem x

/-- The write `a->next_ = v`. -/
def setNext (mem : Addr → LocalHeap) (a : Addr) (v : Option Addr) : Addr → LocalHeap :=
  fun x => if x = a then { mem x with next_ := v } else mem x

/-- The constructor `IsolateSafepoint(Heap*)`: no local heap, no scope, barrier
`Barrier() : armed_(false), stopped_(0)`, mutex free. -/
def IsolateSafepoint.init {σ : Type} (mem : Addr → LocalHeap) (e : σ) : IsolateSafepoint σ :=
  { barrier_ := { armed_ := false, stopped_ := 0 }
    local_heaps_mutex_ := { owner := none }
    local_heaps_head_ := none
    active_safepoint_scopes_ := 0
    local_heaps := mem
    env := e }

/-- The method `IsolateSafepoint::AssertActive`. -/
def IsolateSafepoint.AssertActive {σ : Type} (s : IsolateSafepoint σ) : Bool :=
  s.local_heaps_mutex_.AssertHeld

/-- The method `IsolateSafepoint::AddLocalHeap`, called on thread `t`: take the
registry mutex (`MutexGuard`), run the callback, link `local_heap` in front of
the list, release the mutex. -/
def AddLocalHeap {σ : Type} (s : IsolateSafepoint σ) (t : ThreadId) (local_heap : Addr)
    (callback : σ → σ) : Result (IsolateSafepoint σ) :=
  match s.local_heaps_mutex_.Lock t with
  | none => .blocked
  | some m =>
    let s := { s with local_heaps_mutex_ := m }
    let s := { s with env := callback s.env }
    let s := match s.local_heaps_head_ with
      | some hd => { s with local_heaps := setPrev s.local_heaps hd (some local_heap) }
      | none => s
    let s := { s with local_heaps := setPrev s.local_heaps local_heap none }
    let s := { s with local_heaps := setNext s.local_heaps local_heap s.local_heaps_head_ }
    let s := { s with local_heaps_head_ := some local_heap }
    .done { s with local_heaps_mutex_ := s.local_heaps_mutex_.Unlock }

/-- The method `IsolateSafepoint::RemoveLocalHeap`, called on thread `t`: take
the registry mutex, run the callback, unlink `local_heap`, release the mutex. -/
def RemoveLocalHeap {σ : Type} (s : IsolateSafepoint σ) (t : ThreadId) (local_heap : Addr)
    (callback : σ → σ) : Result (IsolateSafepoint σ) :=
  match s.local_heaps_mutex_.Lock t with
  | none => .blocked
  | some m =>
    let s := { s with local_heaps_mutex_ := m }
    let s := { s with env := callback s.env }
    let s := match (s.local_heaps local_heap).next_ with
      | some nx => { s with local_heaps := setPrev s.local_heaps nx (s.local_heaps local_heap).prev_ }
      | none => s
    let s := match (s.local_heaps local_heap).prev_ with
      | some pv => { s with local_heaps := setNext s.local_heaps pv (s.local_heaps local_heap).next_ }
      | none => { s with local_heaps_head_ := (s.local_heaps local_heap).next_ }
    .done { s with local_heaps_mutex_ := s.local_heaps_mutex_.Unlock }

/-- The loop of `IterateLocalHeaps`:
`for (current = head; current; current = current->next_) callback(current)`.
The callback works on an accumulator; `none` means the fuel ran out. -/
def IterateLocalHeaps.loop {τ : Type} (mem : Addr → LocalHeap) (callback : Addr → τ → τ) :
    Nat → Option Addr → τ → Option τ
  | _, none, acc => some acc
  | 0, some _, _ => none
  | fuel + 1, some current, acc =>
    IterateLocalHeaps.loop mem callback fuel (mem current).next_ (callback current acc)

/-- The method `IsolateSafepoint::IterateLocalHeaps`: `AssertActive()`, then
the loop over the list. -/
def IterateLocalHeaps {σ τ : Type} (s : IsolateSafepoint σ) (callback : Addr → τ → τ)
    (acc : τ) (fuel : Nat) : Result τ :=
  if s.AssertActive then
    match IterateLocalHeaps.loop s.local_heaps callback fuel s.local_heaps_head_ acc with
    | some r => .done r
    | none => .outOfFuel
  else .fatal

/-- The callback that records the handle it is called on. -/
def recordCall (h : Addr) (calls : List Addr) : List Addr := calls ++ [h]

/-- One registration: the thread that registers, its handle and the callback
it passes to `AddLocalHeap`. -/
structure Registration (σ : Type) where
  thread : ThreadId
  local_heap : Addr
  callback : σ → σ

/-- Run the registrations `regs` one after the other. -/
def registerAll {σ : Type} :
    List (Registration σ) → IsolateSafepoint σ → Result (IsolateSafepoint σ)
  | [], s => .done s
  | reg :: regs, s =>
    match AddLocalHeap s reg.thread reg.local_heap reg.callback with
    | .done s1 => registerAll regs s1
    | .blocked => .blocked
    | .fatal => .fatal
    | .outOfFuel => .outOfFuel

/-- The handles met from `cur` along `next_` up to `nullptr` are exactly `l`. -/
def ListFrom (mem : Addr → LocalHeap) : Option Addr → List Addr → Prop
  | cur, [] => cur = none
  | cur, x :: xs => cur = some x ∧ ListFrom mem (mem x).next_ xs

/-- The list `l` starts at `cur`, ends at `nullptr`, and every node's `prev_`
is the node before it (`p` for the first). -/
def Linked (mem : Addr → LocalHeap) : Option Addr → Option Addr → List Addr → Prop
  | _, cur, [] => cur = none
  | p, cur, x :: xs => cur = some x ∧ (mem x).prev_ = p ∧ Linked mem (some x) (mem x).next_ xs

/-- Doubly-linked well-formedness of the registry with iteration sequence `l`:
the head is null or has `prev_ == nullptr`; every handle `x` reached from the
head has `x.next_ == nullptr` or `x.next_->prev_ == x`; no handle is reached
twice.  The handles reached from the head are the members of `l`; that the
walk along `next_` ends at `nullptr` is part of `ListFrom`. -/
def WellFormedWith {σ : Type} (s : IsolateSafepoint σ) (l : List Addr) : Prop :=
  ListFrom s.local_heaps s.local_heaps_head_ l ∧ l.Nodup ∧
  (∀ hd, s.local_heaps_head_ = some hd → (s.local_heaps hd).prev_ = none) ∧
  (∀ x ∈ l, ∀ n, (s.local_heaps x).next_ = some n → (s.local_heaps n).prev_ = some x)

/-- Doubly-linked well-formedness of the registry. -/
def WellFormed {σ : Type} (s : IsolateSafepoint σ) : Prop :=
  ∃ l : List Addr, WellFormedWith s l

/-- The memory after the three link writes of `AddLocalHeap`. -/
def addMem (mem : Addr → LocalHeap) (head : Option Addr) (h : Addr) : Addr → LocalHeap :=
  setNext (setPrev (match head with
    | some hd => setPrev mem hd (some h)
    | none => mem) h none) h head

/-- The memory after the link writes of `RemoveLocalHeap`. -/
def unlinkMem (mem : Addr → LocalHeap) (h : Addr) : Addr → LocalHeap :=
  let m1 := match (mem h).next_ with
    | some nx => setPrev mem nx (mem h).prev_
    | none => mem
  match (m1 h).prev_ with
  | some pv => setNext m1 pv (m1 h).next_
  | none => m1

/-- The list head after `RemoveLocalHeap`. -/
def unlinkHead (mem : Addr → LocalHeap) (head : Option Addr) (h : Addr) : Option Addr :=
  let m1 := match (mem h).next_ with
    | some nx => setPrev mem nx (mem h).prev_
    | none => mem
  match (m1 h).prev_ with
  | some _ => head
  | none => (m1 h).next_

/-! ## Barrier and safepoint scopes -/

/-- Modelled from the spec: `Barrier::Arm` (the bodies of the barrier methods
are in safepoint.cc, which is not among the sources): `armed = true`,
`stopped = 0`. -/
def Barrier.Arm (_b : Barrier) : Barrier := { armed_ := true, stopped_ := 0 }

/-- Modelled from the spec: `Barrier::Disarm` (safepoint.cc is missing):
`armed = false`; the parked threads are woken. -/
def Barrier.Disarm (b : Barrier) : Barrier := { b with armed_ := false }

/-- Modelled from the spec: the counting step of `Barrier::NotifyPark`
(safepoint.cc is missing): `stopped += 1`, after which the parking thread waits
for the barrier to be disarmed. -/
def Barrier.NotifyPark (b : Barrier) : Barrier := { b with stopped_ := b.stopped_ + 1 }

/-- Modelled from the spec: `Barrier::WaitUntilRunningThreadsInSafepoint`
(safepoint.cc is missing): the caller gets past it only when
`stopped == running`; `none` means it is still waiting. -/
def Barrier.WaitUntilRunningThreadsInSafepoint (b : Barrier) (running : Nat) : Option Barrier :=
  if b.stopped_ = running then some b else none

/-- Modelled from the spec: `IsolateSafepoint::EnterSafepointScope`, the
spec's RequestPause (its body is in safepoint.cc, which is not among the
sources), called on thread `t`.  For the outermost request the registry lock
is taken, the barrier is armed, the `running` threads that have to park report
at the barrier, and the requester gets past the wait; a nested request skips
all of that.  The scope counter is incremented last. -/
def EnterSafepointScope {σ : Type} (s : IsolateSafepoint σ) (t : ThreadId) (running : Nat) :
    Result (IsolateSafepoint σ) :=
  if s.active_safepoint_scopes_ = 0 then
    match s.local_heaps_mutex_.Lock t with
    | none => .blocked
    | some m =>
      let b := Nat.iterate Barrier.NotifyPark running s.barrier_.Arm
      match b.WaitUntilRunningThreadsInSafepoint running with
      | none => .blocked
      | some b => .done { s with
          local_heaps_mutex_ := m
          barrier_ := b
          active_safepoint_scopes_ := s.active_safepoint_scopes_ + 1 }
  else .done { s with active_safepoint_scopes_ := s.active_safepoint_scopes_ + 1 }

/-- Modelled from the spec: `IsolateSafepoint::LeaveSafepointScope`, the
spec's ReleasePause (its body is in safepoint.cc, which is not among the
sources).  Releasing with no active scope is a fatal assertion; otherwise the
counter is decremented and, only when it reaches zero, the barrier is disarmed
and the registry lock released. -/
def LeaveSafepointScope {σ : Type} (s : IsolateSafepoint σ) : Result (IsolateSafepoint σ) :=
  if s.active_safepoint_scopes_ = 0 then .fatal
  else
    let s := { s with active_safepoint_scopes_ := s.active_safepoint_scopes_ - 1 }
    if s.active_safepoint_scopes_ = 0 then
      .done { s with
        barrier_ := s.barrier_.Disarm
        local_heaps_mutex_ := s.local_heaps_mutex_.Unlock }
    else .done s

/-- One call of a pause requester. -/
inductive PauseOp where
  | request (t : ThreadId) (running : Nat)
  | release
deriving DecidableEq, Repr

/-- Run a sequence of pause calls, each to completion, stopping at the first
one that does not return. -/
def runPauseOps {σ : Type} : List PauseOp → IsolateSafepoint σ → Result (IsolateSafepoint σ)
  | [], s => .done s
  | .request t running :: ops, s =>
    match EnterSafepointScope s t running with
    | .done s1 => runPauseOps ops s1
    | .blocked => .blocked
    | .fatal => .fatal
    | .outOfFuel => .outOfFuel
  | .release :: ops, s =>
    match LeaveSafepointScope s with
    | .done s1 => runPauseOps ops s1
    | .blocked => .blocked
    | .fatal => .fatal
    | .outOfFuel => .outOfFuel

/-- A sequence of pause calls is well nested from depth `d` when no release
comes without an open request before it. -/
def wellNested : Nat → List PauseOp → Bool
  | _, [] => true
  | d, .request _ _ :: ops => wellNested (d + 1) ops
  | d, .release :: ops => decide (0 < d) && wellNested (d - 1) ops

/-- The number of requests still open after a sequence of pause calls that
started at depth `d`. -/
def pauseDepth : Nat → List PauseOp → Nat
  | d, [] => d
  | d, .request _ _ :: ops => pauseDepth (d + 1) ops
  | d, .release :: ops => pauseDepth (d - 1) ops

/-! ## The embedder tracer bridge -/

/-- The enumeration `EmbedderHeapTracer::EmbedderStackState`. -/
inductive EmbedderStackState where
  | kMayContainHeapPointers
  | kNoHeapPointers
deriving DecidableEq, Repr

/-- The enumeration `EmbedderHeapTracer::TraceFlags`. -/
inductive TraceFlags where
  | kNoFlags
  | kReduceMemory
deriving DecidableEq, Repr

/-- The pair `LocalEmbedderHeapTracer::WrapperInfo`, two opaque pointers. -/
abbrev WrapperInfo := Option Nat × Option Nat

/-- The helper `CreateWrapperInfo()` of the unit test. -/
def CreateWrapperInfo : WrapperInfo := (none, none)

/-- A call received by the remote tracer: the six mocked methods of
`MockEmbedderHeapTracer`.  The deadline is a value of type `δ` that the bridge
only passes on. -/
inductive TracerCall (δ : Type) where
  | TracePrologue (flags : TraceFlags)
  | TraceEpilogue
  | EnterFinalPause (stack_state : EmbedderStackState)
  | IsTracingDone
  | RegisterV8References (refs : List WrapperInfo)
  | AdvanceTracing (deadline_in_ms : δ)
deriving DecidableEq, Repr

/-- The embedder's tracer as the bridge sees it: its two answers and the
isolate it has been told about. -/
structure EmbedderHeapTracer (δ : Type) where
  IsTracingDone : Bool
  AdvanceTracing : δ → Bool
  isolate_ : Option Nat

/-- Modelled from the spec: `LocalEmbedderHeapTracer`, the spec's
EmbedderTracerBridge (src/heap/embedder-tracing.h and .cc are not among the
sources; only their unit test is).  The bridge holds the optional tracer, the
current default stack state, the one-shot override for the next finalization,
and `calls`, the calls made to the tracer so far, oldest first. -/
structure LocalEmbedderHeapTracer (δ : Type) where
  isolate_ : Option Nat
  remote_tracer_ : Option (EmbedderHeapTracer δ)
  embedder_stack_state_ : EmbedderStackState
  next_finalization_stack_state_ : Option EmbedderStackState
  calls : List (TracerCall δ)

namespace LocalEmbedderHeapTracer

variable {δ : Type}

/-- Modelled from the spec: the constructor `LocalEmbedderHeapTracer(isolate)`
(embedder-tracing.h is missing): no tracer, default stack state
`kMayContainHeapPointers`, no override. -/
def create (isolate : Option Nat) : LocalEmbedderHeapTracer δ :=
  { isolate_ := isolate
    remote_tracer_ := none
    embedder_stack_state_ := .kMayContainHeapPointers
    next_finalization_stack_state_ := none
    calls := [] }

/-- Modelled from the spec: `InUse` (embedder-tracing.h is missing): true iff a
tracer is attached. -/
def InUse (b : LocalEmbedderHeapTracer δ) : Bool := b.remote_tracer_.isSome

/-- Modelled from the spec: `SetRemoteTracer` (embedder-tracing.cc is
missing): swap the reference; the outgoing tracer forgets the isolate and is
handed back, the incoming one learns it. -/
def SetRemoteTracer (b : LocalEmbedderHeapTracer δ) (tracer : Option (EmbedderHeapTracer δ)) :
    LocalEmbedderHeapTracer δ × Option (EmbedderHeapTracer δ) :=
  ({ b with remote_tracer_ := tracer.map fun tr => { tr with isolate_ := b.isolate_ } },
   b.remote_tracer_.map fun tr => { tr with isolate_ := none })

/-- Modelled from the spec: `TracePrologue` (embedder-tracing.cc is missing):
nothing if not in use, else forwarded verbatim. -/
def TracePrologue (b : LocalEmbedderHeapTracer δ) (flags : TraceFlags) :
    LocalEmbedderHeapTracer δ :=
  if b.InUse then { b with calls := b.calls ++ [.TracePrologue flags] } else b

/-- Modelled from the spec: `TraceEpilogue` (embedder-tracing.cc is missing):
forwarded if in use, nothing otherwise. -/
def TraceEpilogue (b : LocalEmbedderHeapTracer δ) : LocalEmbedderHeapTracer δ :=
  if b.InUse then { b with calls := b.calls ++ [.TraceEpilogue] } else b

/-- Modelled from the spec: `EnterFinalPause` (embedder-tracing.cc is
missing): nothing if not in use; else the effective stack state is the
one-shot override if set, which is consumed, else the current default, and it
is forwarded to the tracer. -/
def EnterFinalPause (b : LocalEmbedderHeapTracer δ) : LocalEmbedderHeapTracer δ :=
  if b.InUse then
    let effective := match b.next_finalization_stack_state_ with
      | some st => st
      | none => b.embedder_stack_state_
    { b with
      calls := b.calls ++ [.EnterFinalPause effective]
      next_finalization_stack_state_ := none }
  else b

/-- Modelled from the spec: `IsRemoteTracingDone` (embedder-tracing.h is
missing): true if not in use, else the tracer's own answer. -/
def IsRemoteTracingDone (b : LocalEmbedderHeapTracer δ) : Bool × LocalEmbedderHeapTracer δ :=
  match b.remote_tracer_ with
  | none => (true, b)
  | some tr => (tr.IsTracingDone, { b with calls := b.calls ++ [.IsTracingDone] })

/-- Modelled from the spec: `Trace` (embedder-tracing.cc is missing): true at
once if not in use, else the deadline goes to the tracer's `AdvanceTracing`
and its answer comes back. -/
def Trace (b : LocalEmbedderHeapTracer δ) (deadline : δ) : Bool × LocalEmbedderHeapTracer δ :=
  match b.remote_tracer_ with
  | none => (true, b)
  | some tr => (tr.AdvanceTracing deadline,
      { b with calls := b.calls ++ [.AdvanceTracing deadline] })

/-- Modelled from the spec: `SetEmbedderStackStateForNextFinalization`
(embedder-tracing.cc is missing): stores the one-shot override. -/
def SetEmbedderStackStateForNextFinalization (b : LocalEmbedderHeapTracer δ)
    (stack_state : EmbedderStackState) : LocalEmbedderHeapTracer δ :=
  { b with next_finalization_stack_state_ := some stack_state }

end LocalEmbedderHeapTracer

/-- Modelled from the spec: an `EmbedderStackStateScope` object, the spec's
StackStateScope (embedder-tracing.h is missing): it keeps the stack state it
found at construction. -/
structure EmbedderStackStateScope where
  old_stack_state_ : EmbedderStackState
deriving DecidableEq, Repr

/-- Modelled from the spec: the constructor of `EmbedderStackStateScope`
(embedder-tracing.h is missing): save the bridge's current state, install the
new one. -/
def EmbedderStackStateScope.enter {δ : Type} (b : LocalEmbedderHeapTracer δ)
    (stack_state : EmbedderStackState) : EmbedderStackStateScope × LocalEmbedderHeapTracer δ :=
  ({ old_stack_state_ := b.embedder_stack_state_ },
   { b with embedder_stack_state_ := stack_state })

/-- Modelled from the spec: the destructor of `EmbedderStackStateScope`
(embedder-tracing.h is missing): restore the state saved at construction. -/
def EmbedderStackStateScope.exit {δ : Type} (sc : EmbedderStackStateScope)
    (b : LocalEmbedderHeapTracer δ) : LocalEmbedderHeapTracer δ :=
  { b with embedder_stack_state_ := sc.old_stack_state_ }

/-- Modelled from the spec: a `LocalEmbedderHeapTracer::ProcessingScope`
object (embedder-tracing.h is missing): the buffer of wrapper infos. -/
structure ProcessingScope where
  wrapper_cache_ : List WrapperInfo
deriving DecidableEq, Repr

/-- Modelled from the spec: the constructor of `ProcessingScope`
(embedder-tracing.cc is missing): an empty buffer is opened. -/
def ProcessingScope.enter {δ : Type} (b : LocalEmbedderHeapTracer δ) :
    LocalEmbedderHeapTracer δ × ProcessingScope :=
  (b, { wrapper_cache_ := [] })

/-- Modelled from the spec: `ProcessingScope::AddWrapperInfoForTesting`
(embedder-tracing.cc is missing): append to the buffer, forward nothing. -/
def ProcessingScope.AddWrapperInfoForTesting {δ : Type}
    (st : LocalEmbedderHeapTracer δ × ProcessingScope) (info : WrapperInfo) :
    LocalEmbedderHeapTracer δ × ProcessingScope :=
  (st.1, { wrapper_cache_ := st.2.wrapper_cache_ ++ [info] })

/-- Modelled from the spec: the destructor of `ProcessingScope`
(embedder-tracing.cc is missing): if the buffer is not empty, one
`RegisterV8References` call with the whole batch; nothing without a tracer. -/
def ProcessingScope.exit {δ : Type} (st : LocalEmbedderHeapTracer δ × ProcessingScope) :
    LocalEmbedderHeapTracer δ :=
  if st.1.InUse && !st.2.wrapper_cache_.isEmpty then
    { st.1 with calls := st.1.calls ++ [.RegisterV8References st.2.wrapper_cache_] }
  else st.1

/-- One step of a program that works with nested stack state scopes. -/
inductive ScopeOp where
  | enterScope (stack_state : EmbedderStackState)
  | exitScope
  | finalPause
deriving DecidableEq, Repr

/-- Run a program of scope entries, scope exits and final pauses.  The live
scope objects are kept innermost first; an exit destroys the innermost one
(`none` when there is none to destroy). -/
def runScopeOps {δ : Type} : List ScopeOp →
    LocalEmbedderHeapTracer δ × List EmbedderStackStateScope →
    Option (LocalEmbedderHeapTracer δ × List EmbedderStackStateScope)
  | [], st => some st
  | .enterScope x :: ops, (b, live) =>
    let r := EmbedderStackStateScope.enter b x
    runScopeOps ops (r.2, r.1 :: live)
  | .exitScope :: _, (_, []) => none
  | .exitScope :: ops, (b, sc :: live) => runScopeOps ops (sc.exit b, live)
  | .finalPause :: ops, (b, live) => runScopeOps ops (b.EnterFinalPause, live)

/-- A scope program is well nested from depth `d` when no exit comes without a
live scope. -/
def scopesNested : Nat → List ScopeOp → Bool
  | _, [] => true
  | d, .enterScope _ :: ops => scopesNested (d + 1) ops
  | d, .exitScope :: ops => decide (0 < d) && scopesNested (d - 1) ops
  | d, .finalPause :: ops => scopesNested d ops

/-- What the claim expects each final pause of a scope program to forward: the
state of the innermost live scope, `kMayContainHeapPointers` when no scope is
live.  `live` lists the states of the live scopes, innermost first. -/
def expectedForwards : List ScopeOp → List EmbedderStackState → List EmbedderStackState
  | [], _ => []
  | .enterScope x :: ops, live => expectedForwards ops (x :: live)
  | .exitScope :: ops, live => expectedForwards ops live.tail
  | .finalPause :: ops, live =>
    live.headD .kMayContainHeapPointers :: expectedForwards ops live

/-- The bridge after `n` calls of `EnterFinalPause`. -/
def finalPauses {δ : Type} : Nat → LocalEmbedderHeapTracer δ → LocalEmbedderHeapTracer δ
  | 0, b => b
  | n + 1, b => finalPauses n b.EnterFinalPause

/-! ## Invariant and example states -/

/-- The invariant of the coordinator between calls: the barrier is armed iff a
scope is active, and the registry lock is free when no scope is active. -/
def PauseInv {σ : Type} (s : IsolateSafepoint σ) : Prop :=
  (s.barrier_.armed_ = true ↔ 0 < s.active_safepoint_scopes_) ∧
  (s.active_safepoint_scopes_ = 0 → s.local_heaps_mutex_.owner = none)

/-- The memory of the examples: handle 5 is the head, followed by 6 and 7. -/
def exampleHeaps : Addr → LocalHeap := fun x =>
  if x = 5 then ⟨none, some 6⟩
  else if x = 6 then ⟨some 5, some 7⟩
  else if x = 7 then ⟨some 6, none⟩
  else ⟨none, none⟩

/-- The registry of the examples: 5, 6, 7 registered, no pause, lock free. -/
def exampleRegistry : IsolateSafepoint Unit :=
  { IsolateSafepoint.init exampleHeaps () with local_heaps_head_ := some 5 }

/-- The registry of the examples during a pause requested by thread 1. -/
def examplePaused : IsolateSafepoint Unit :=
  { exampleRegistry with
    local_heaps_mutex_ := { owner := some 1 }
    barrier_ := { armed_ := true, stopped_ := 0 }
    active_safepoint_scopes_ := 1 }

/-- The tracer of the examples. -/
def exampleTracer : EmbedderHeapTracer Nat :=
  { IsTracingDone := false, AdvanceTracing := fun _ => false, isolate_ := none }

/-- The bridge of the examples: `SetRemoteTracer(&remote_tracer)` on a new
bridge. -/
def exampleBridge : LocalEmbedderHeapTracer Nat :=
  ((LocalEmbedderHeapTracer.create none).SetRemoteTracer (some exampleTracer)).1

/-! ## The registry list -/

theorem AddLocalHeap_free {σ : Type} (s : IsolateSafepoint σ) (t : ThreadId) (h : Addr)
    (cb : σ → σ) (hfree : s.local_heaps_mutex_.owner = none) :
    AddLocalHeap s t h cb = .done { s with
      env := cb s.env
      local_heaps := addMem s.local_heaps s.local_heaps_head_ h
      local_heaps_head_ := some h
      local_heaps_mutex_ := { owner := none } } := by
  obtain ⟨b, ⟨o⟩, hd, n, mem, e⟩ := s
  simp only at hfree
  subst hfree
  cases hd <;> simp [AddLocalHeap, Mutex.Lock, Mutex.Unlock, addMem]

theorem RemoveLocalHeap_free {σ : Type} (s : IsolateSafepoint σ) (t : ThreadId) (h : Addr)
    (cb : σ → σ) (hfree : s.local_heaps_mutex_.owner = none) :
    RemoveLocalHeap s t h cb = .done { s with
      env := cb s.env
      local_heaps := unlinkMem s.local_heaps h
      local_heaps_head_ := unlinkHead s.local_heaps s.local_heaps_head_ h
      local_heaps_mutex_ := { owner := none } } := by
  obtain ⟨b, ⟨o⟩, hd, n, mem, e⟩ := s
  simp only at hfree
  subst hfree
  simp only [RemoveLocalHeap, Mutex.Lock, Mutex.Unlock, unlinkMem, unlinkHead]
  cases h1 : (mem h).next_ <;> simp only [h1] <;> split <;> simp_all

theorem Linked.listFrom {mem : Addr → LocalHeap} : ∀ {l : List Addr} {p c : Option Addr},
    Linked mem p c l → ListFrom mem c l
  | [], _, _, h => h
  | _ :: _, _, _, ⟨h1, _, h3⟩ => ⟨h1, Linked.listFrom h3⟩

theorem Linked.frame {mem mem2 : Addr → LocalHeap} : ∀ {l : List Addr} {p c : Option Addr},
    (∀ y ∈ l, mem2 y = mem y) → Linked mem p c l → Linked mem2 p c l
  | [], _, _, _, h => h
  | x :: xs, _, _, hf, ⟨h1, h2, h3⟩ => by
    have hx : mem2 x = mem x := hf x (List.mem_cons_self _ _)
    refine ⟨h1, by rw [hx]; exact h2, ?_⟩
    rw [hx]
    exact Linked.frame (fun y hy => hf y (List.mem_cons_of_mem _ hy)) h3

theorem ListFrom.unique {mem : Addr → LocalHeap} : ∀ {l1 l2 : List Addr} {c : Option Addr},
    ListFrom mem c l1 → ListFrom mem c l2 → l1 = l2
  | [], [], _, _, _ => rfl
  | [], _ :: _, _, h1, ⟨h2, _⟩ => by simp [ListFrom] at h1; simp [h1] at h2
  | _ :: _, [], _, ⟨h1, _⟩, h2 => by simp [ListFrom] at h2; simp [h2] at h1
  | x :: xs, y :: ys, _, ⟨h1, h1r⟩, ⟨h2, h2r⟩ => by
    have : x = y := by rw [h1] at h2; exact Option.some.inj h2
    subst this
    rw [ListFrom.unique h1r h2r]

theorem loop_of_listFrom {τ : Type} (mem : Addr → LocalHeap) (callback : Addr → τ → τ) :
    ∀ (l : List Addr) (c : Option Addr) (acc : τ) (fuel : Nat), ListFrom mem c l →
      l.length ≤ fuel →
      IterateLocalHeaps.loop mem callback fuel c acc
        = some (l.foldl (fun a x => callback x a) acc)
  | [], c, acc, fuel, h, _ => by
    simp only [ListFrom] at h
    subst h
    cases fuel <;> simp [IterateLocalHeaps.loop]
  | x :: xs, c, acc, fuel, ⟨h1, h2⟩, hf => by
    subst h1
    cases fuel with
    | zero => simp at hf
    | succ n =>
      simp only [IterateLocalHeaps.loop, List.foldl_cons]
      exact loop_of_listFrom mem callback xs _ _ n h2 (by simpa using hf)

theorem foldl_recordCall (l : List Addr) : ∀ acc : List Addr,
    l.foldl (fun a x => recordCall x a) acc = acc ++ l := by
  induction l with
  | nil => simp
  | cons x xs ih => intro acc; rw [List.foldl_cons, ih]; simp [recordCall]

theorem Linked.next_prev {mem : Addr → LocalHeap} : ∀ {l : List Addr} {p c : Option Addr},
    Linked mem p c l → ∀ x ∈ l, ∀ n, (mem x).next_ = some n → (mem n).prev_ = some x ∧ n ∈ l
  | [], _, _, _, x, hx, _, _ => by simp at hx
  | y :: ys, _, _, ⟨_, _, h3⟩, x, hx, n, hn => by
    rcases List.mem_cons.1 hx with rfl | hx2
    · cases ys with
      | nil => simp only [Linked] at h3; rw [h3] at hn; simp at hn
      | cons z zs =>
        obtain ⟨hz, hzp, _⟩ := h3
        rw [hn] at hz
        have hnz : n = z := Option.some.inj hz
        subst hnz
        exact ⟨hzp, by simp⟩
    · obtain ⟨h, hm⟩ := Linked.next_prev h3 x hx2 n hn
      exact ⟨h, List.mem_cons_of_mem _ hm⟩

theorem Linked.prev_cases {mem : Addr → LocalHeap} : ∀ {l : List Addr} {p c : Option Addr},
    Linked mem p c l → ∀ h ∈ l,
      (c = some h ∧ (mem h).prev_ = p) ∨
      (c ≠ some h ∧ ∃ q ∈ l, (mem h).prev_ = some q ∧ (mem q).next_ = some h)
  | [], _, _, _, h, hh => by simp at hh
  | y :: ys, _, _, ⟨h1, h2, h3⟩, h, hh => by
    by_cases hy : h = y
    · subst hy
      exact Or.inl ⟨h1, h2⟩
    · have hh2 : h ∈ ys := by
        rcases List.mem_cons.1 hh with e | e
        · exact absurd e hy
        · exact e
      refine Or.inr ⟨by rw [h1]; intro e; exact hy (Option.some.inj e).symm, ?_⟩
      rcases Linked.prev_cases h3 h hh2 with ⟨e1, e2⟩ | ⟨_, q, hq, e1, e2⟩
      · exact ⟨y, by simp, e2, e1⟩
      · exact ⟨q, List.mem_cons_of_mem _ hq, e1, e2⟩

theorem linked_of_listFrom {mem : Addr → LocalHeap} : ∀ {l : List Addr} {p c : Option Addr},
    ListFrom mem c l → (∀ hd, c = some hd → (mem hd).prev_ = p) →
    (∀ x ∈ l, ∀ n, (mem x).next_ = some n → (mem n).prev_ = some x) → Linked mem p c l
  | [], _, _, h, _, _ => h
  | x :: xs, _, _, ⟨h1, h2⟩, hp, hn =>
    ⟨h1, hp x h1, linked_of_listFrom h2 (fun hd e => hn x (by simp) hd e)
      (fun y hy => hn y (List.mem_cons_of_mem _ hy))⟩

theorem linked_of_wellFormedWith {σ : Type} {s : IsolateSafepoint σ} {l : List Addr}
    (h : WellFormedWith s l) : Linked s.local_heaps none s.local_heaps_head_ l :=
  linked_of_listFrom h.1 h.2.2.1 h.2.2.2

theorem wellFormedWith_of_linked {σ : Type} {s : IsolateSafepoint σ} {l : List Addr}
    (h : Linked s.local_heaps none s.local_heaps_head_ l) (hnd : l.Nodup) :
    WellFormedWith s l := by
  refine ⟨h.listFrom, hnd, ?_, fun x hx n hn => (h.next_prev x hx n hn).1⟩
  intro hd e
  cases l with
  | nil => simp only [Linked] at h; rw [h] at e; simp at e
  | cons y ys =>
    obtain ⟨h1, h2, _⟩ := h
    rw [h1] at e
    have : y = hd := Option.some.inj e
    subst this
    exact h2

theorem setPrev_next (mem : Addr → LocalHeap) (a : Addr) (v : Option Addr) (x : Addr) :
    (setPrev mem a v x).next_ = (mem x).next_ := by
  unfold setPrev; split <;> rfl

theorem setNext_prev (mem : Addr → LocalHeap) (a : Addr) (v : Option Addr) (x : Addr) :
    (setNext mem a v x).prev_ = (mem x).prev_ := by
  unfold setNext; split <;> rfl

theorem setPrev_prev (mem : Addr → LocalHeap) (a : Addr) (v : Option Addr) (x : Addr) :
    (setPrev mem a v x).prev_ = if x = a then v else (mem x).prev_ := by
  unfold setPrev; split <;> rfl

theorem setNext_next (mem : Addr → LocalHeap) (a : Addr) (v : Option Addr) (x : Addr) :
    (setNext mem a v x).next_ = if x = a then v else (mem x).next_ := by
  unfold setNext; split <;> rfl

theorem addMem_prev (mem : Addr → LocalHeap) (head : Option Addr) (h x : Addr) :
    (addMem mem head h x).prev_ =
      if x = h then none else if head = some x then some h else (mem x).prev_ := by
  unfold addMem
  rw [setNext_prev, setPrev_prev]
  split
  · rfl
  · cases head with
    | none => simp
    | some hd =>
      simp only [setPrev_prev, Option.some.injEq]
      by_cases e : x = hd
      · simp [e]
      · have : ¬ hd = x := fun e2 => e e2.symm
        simp [e, this]

theorem addMem_next (mem : Addr → LocalHeap) (head : Option Addr) (h x : Addr) :
    (addMem mem head h x).next_ = if x = h then head else (mem x).next_ := by
  unfold addMem
  rw [setNext_next]
  split
  · rfl
  · cases head <;> simp [setPrev_next]

theorem addMem_other (mem : Addr → LocalHeap) (head : Option Addr) (h x : Addr)
    (hx : x ≠ h) (hh : head ≠ some x) : addMem mem head h x = mem x := by
  have h1 := addMem_prev mem head h x
  have h2 := addMem_next mem head h x
  simp only [hx, hh, if_false] at h1 h2
  cases hm : mem x
  cases ha : addMem mem head h x
  simp_all

theorem addMem_linked {mem : Addr → LocalHeap} {head : Option Addr} {l : List Addr} (h : Addr)
    (hl : Linked mem none head l) (hnd : l.Nodup) (hh : h ∉ l) :
    Linked (addMem mem head h) none (some h) (h :: l) := by
  refine ⟨rfl, by simp [addMem_prev], ?_⟩
  rw [addMem_next, if_pos rfl]
  cases l with
  | nil => exact hl
  | cons x xs =>
    obtain ⟨h1, _, h3⟩ := hl
    have hxh : x ≠ h := fun e => hh (by simp [e])
    have hxs : x ∉ xs := (List.nodup_cons.1 hnd).1
    refine ⟨h1, by simp [addMem_prev, hxh, h1], ?_⟩
    rw [addMem_next, if_neg hxh]
    refine Linked.frame (fun y hy => addMem_other mem head h y ?_ ?_) h3
    · rintro rfl; exact hh (List.mem_cons_of_mem _ hy)
    · rw [h1]; intro e; exact hxs (by rw [Option.some.inj e]; exact hy)

theorem ListFrom.next_ne_self {mem : Addr → LocalHeap} : ∀ {l : List Addr} {c : Option Addr},
    ListFrom mem c l → l.Nodup → ∀ h ∈ l, (mem h).next_ ≠ some h
  | [], _, _, _, h, hh => by simp at hh
  | x :: xs, _, ⟨_, h2⟩, hnd, h, hh => by
    rcases List.mem_cons.1 hh with rfl | hh2
    · intro e
      cases xs with
      | nil => simp only [ListFrom] at h2; rw [h2] at e; simp at e
      | cons z zs =>
        rw [e] at h2
        have hz : h = z := Option.some.inj h2.1
        exact (List.nodup_cons.1 hnd).1 (by simp [hz])
    · exact ListFrom.next_ne_self h2 (List.nodup_cons.1 hnd).2 h hh2

theorem unlinkMem_prev (mem : Addr → LocalHeap) (h x : Addr) :
    (unlinkMem mem h x).prev_ =
      if (mem h).next_ = some x then (mem h).prev_ else (mem x).prev_ := by
  unfold unlinkMem
  cases hn : (mem h).next_ with
  | none =>
    simp only
    cases hp : (mem h).prev_ <;> simp [setNext_prev]
  | some nx =>
    have : (nx = x) = (x = nx) := propext ⟨Eq.symm, Eq.symm⟩
    simp only [setPrev_prev, ite_self, setPrev_next]
    cases hp : (mem h).prev_ <;> simp [setNext_prev, setPrev_prev, this]

theorem unlinkMem_next (mem : Addr → LocalHeap) (h x : Addr) (hne : (mem h).next_ ≠ some h) :
    (unlinkMem mem h x).next_ =
      if (mem h).prev_ = some x then (mem h).next_ else (mem x).next_ := by
  unfold unlinkMem
  cases hn : (mem h).next_ with
  | none =>
    simp only
    cases hp : (mem h).prev_ with
    | none => simp
    | some pv =>
      have : (pv = x) = (x = pv) := propext ⟨Eq.symm, Eq.symm⟩
      simp [setNext_next, hn, this]
  | some nx =>
    have hnx : h ≠ nx := fun e => hne (by rw [hn, e])
    simp only [setPrev_prev, if_neg hnx, setPrev_next, hn]
    cases hp : (mem h).prev_ with
    | none => simp [setPrev_next]
    | some pv =>
      have : (pv = x) = (x = pv) := propext ⟨Eq.symm, Eq.symm⟩
      simp [setNext_next, setPrev_next, this]

theorem unlinkHead_eq (mem : Addr → LocalHeap) (head : Option Addr) (h : Addr)
    (hne : (mem h).next_ ≠ some h) :
    unlinkHead mem head h = if (mem h).prev_ = none then (mem h).next_ else head := by
  unfold unlinkHead
  cases hn : (mem h).next_ with
  | none =>
    simp only
    cases hp : (mem h).prev_ <;> simp [hn]
  | some nx =>
    have hnx : h ≠ nx := fun e => hne (by rw [hn, e])
    simp only [setPrev_prev, if_neg hnx, setPrev_next, hn]
    cases hp : (mem h).prev_ <;> simp

theorem unlinkMem_same (mem : Addr → LocalHeap) (h x : Addr) (hne : (mem h).next_ ≠ some h)
    (h1 : (mem h).next_ ≠ some x) (h2 : (mem h).prev_ ≠ some x) :
    unlinkMem mem h x = mem x := by
  have e1 := unlinkMem_prev mem h x
  have e2 := unlinkMem_next mem h x hne
  rw [if_neg h1] at e1
  rw [if_neg h2] at e2
  cases hm : mem x
  cases ha : unlinkMem mem h x
  simp_all

theorem unlinkMem_linked (mem : Addr → LocalHeap) (h : Addr) :
    ∀ (l : List Addr) (p c : Option Addr), Linked mem p c l → l.Nodup → h ∈ l →
      (∀ pv, p = some pv → pv ∉ l) →
      Linked (unlinkMem mem h) p (if c = some h then (mem h).next_ else c) (l.erase h)
  | [], _, _, _, _, hh, _ => by simp at hh
  | x :: xs, p, c, hl, hnd, hh, hp => by
    have hne : (mem h).next_ ≠ some h := hl.listFrom.next_ne_self hnd h hh
    obtain ⟨h1, h2, h3⟩ := hl
    obtain ⟨hx, hnd2⟩ := List.nodup_cons.1 hnd
    by_cases hxh : x = h
    · subst hxh
      rw [if_pos h1, List.erase_cons_head]
      cases xs with
      | nil => exact h3
      | cons z zs =>
        obtain ⟨k1, k2, k3⟩ := h3
        have hpz : (mem x).prev_ ≠ some z := by
          rw [h2]; intro e; exact hp z e (by simp)
        refine ⟨k1, by rw [unlinkMem_prev, if_pos k1, h2], ?_⟩
        rw [unlinkMem_next mem x z hne, if_neg hpz]
        refine Linked.frame (fun y hy => unlinkMem_same mem x y hne ?_ ?_) k3
        · rw [k1]; intro e
          exact (List.nodup_cons.1 hnd2).1 (by rw [Option.some.inj e]; exact hy)
        · rw [h2]; intro e; exact hp y e (by simp [hy])
    · have hh2 : h ∈ xs := by
        rcases List.mem_cons.1 hh with e | e
        · exact absurd e.symm hxh
        · exact e
      have hc : c ≠ some h := by rw [h1]; intro e; exact hxh (Option.some.inj e)
      rw [if_neg hc, List.erase_cons_tail (by simpa using hxh)]
      have hnx : (mem h).next_ ≠ some x := fun e => hx (h3.next_prev h hh2 x e).2
      refine ⟨h1, by rw [unlinkMem_prev, if_neg hnx]; exact h2, ?_⟩
      have ih := unlinkMem_linked mem h xs (some x) (mem x).next_ h3 hnd2 hh2
        (fun pv e => by rw [← Option.some.inj e]; exact hx)
      have key : (unlinkMem mem h x).next_
          = if (mem x).next_ = some h then (mem h).next_ else (mem x).next_ := by
        rw [unlinkMem_next mem h x hne]
        rcases h3.prev_cases h hh2 with ⟨e1, e2⟩ | ⟨e1, q, hq, e2, _⟩
        · rw [if_pos e2, if_pos e1]
        · have : (mem h).prev_ ≠ some x := by
            rw [e2]; intro e; exact hx (by rw [← Option.some.inj e]; exact hq)
          rw [if_neg this, if_neg e1]
      rw [key]
      exact ih

theorem unlink_wellFormedWith {σ : Type} {s : IsolateSafepoint σ} {l : List Addr} (h : Addr)
    (hwf : WellFormedWith s l) (hh : h ∈ l) :
    Linked (unlinkMem s.local_heaps h) none (unlinkHead s.local_heaps s.local_heaps_head_ h)
      (l.erase h) := by
  have hl := linked_of_wellFormedWith hwf
  have hne : (s.local_heaps h).next_ ≠ some h := hwf.1.next_ne_self hwf.2.1 h hh
  have := unlinkMem_linked s.local_heaps h l none s.local_heaps_head_ hl hwf.2.1 hh
    (fun pv e => by simp at e)
  rw [unlinkHead_eq _ _ _ hne]
  rcases hl.prev_cases h hh with ⟨e1, e2⟩ | ⟨e1, q, _, e2, _⟩
  · rw [if_pos e2]; rw [if_pos e1] at this; exact this
  · rw [if_neg (by rw [e2]; simp)]; rw [if_neg e1] at this; exact this

theorem iterate_of_listFrom {σ τ : Type} (s : IsolateSafepoint σ) (l : List Addr)
    (callback : Addr → τ → τ) (acc : τ) (fuel : Nat)
    (hl : ListFrom s.local_heaps s.local_heaps_head_ l) (hf : l.length ≤ fuel)
    (hheld : s.local_heaps_mutex_.owner.isSome = true) :
    IterateLocalHeaps s callback acc fuel
      = .done (l.foldl (fun a x => callback x a) acc) := by
  unfold IterateLocalHeaps IsolateSafepoint.AssertActive Mutex.AssertHeld
  rw [if_pos hheld, loop_of_listFrom s.local_heaps callback l _ acc _ hl hf]

theorem registerAll_linked {σ : Type} :
    ∀ (regs : List (Registration σ)) (s : IsolateSafepoint σ) (l : List Addr),
      Linked s.local_heaps none s.local_heaps_head_ l → l.Nodup →
      (regs.map fun reg => reg.local_heap).Nodup →
      (∀ h ∈ regs.map (fun reg => reg.local_heap), h ∉ l) →
      s.local_heaps_mutex_.owner = none →
      ∃ s2, registerAll regs s = .done s2 ∧ s2.local_heaps_mutex_.owner = none ∧
        Linked s2.local_heaps none s2.local_heaps_head_
          ((regs.map fun reg => reg.local_heap).reverse ++ l)
  | [], s, l, hl, _, _, _, hfree => ⟨s, rfl, hfree, by simpa using hl⟩
  | reg :: regs, s, l, hl, hnd, hhs, hdis, hfree => by
    rw [List.map_cons] at hhs hdis
    obtain ⟨hh, hhs2⟩ := List.nodup_cons.1 hhs
    have hhl : reg.local_heap ∉ l := hdis _ (by simp)
    have hadd := addMem_linked reg.local_heap hl hnd hhl
    obtain ⟨s2, e1, e2, e3⟩ := registerAll_linked regs
      { s with
        env := reg.callback s.env
        local_heaps := addMem s.local_heaps s.local_heaps_head_ reg.local_heap
        local_heaps_head_ := some reg.local_heap
        local_heaps_mutex_ := { owner := none } } (reg.local_heap :: l) hadd
      (List.nodup_cons.2 ⟨hhl, hnd⟩) hhs2
      (fun x hx => by
        intro hm
        rcases List.mem_cons.1 hm with e | e
        · exact hh (e ▸ hx)
        · exact hdis x (List.mem_cons_of_mem _ hx) e) rfl
    refine ⟨s2, ?_, e2, by simpa using e3⟩
    simp only [registerAll, AddLocalHeap_free s reg.thread reg.local_heap reg.callback hfree]
    exact e1

/-! ## The claims -/

/-- C1: for every sequence of registrations of distinct handles `hs` with
`AddLocalHeap` into an empty registry, `IterateLocalHeaps`, run with the
registry lock held (here by thread `r`) and enough fuel, returns and has
invoked its callback on the handles of `hs` in reverse registration order:
each handle of `hs` exactly once and no other handle. -/
theorem iterate_visits_registered_once {σ τ : Type} (s0 : IsolateSafepoint σ) (r : ThreadId)
    (regs : List (Registration σ)) (hs : List Addr) (extra : Nat)
    (hregs : regs.map (fun reg => reg.local_heap) = hs) (hnd : hs.Nodup)
    (hempty : s0.local_heaps_head_ = none) (hfree : s0.local_heaps_mutex_.owner = none) :
    ∃ s m, registerAll regs s0 = .done s ∧ s.local_heaps_mutex_.Lock r = some m ∧
      (∀ (callback : Addr → τ → τ) (acc : τ),
        IterateLocalHeaps { s with local_heaps_mutex_ := m } callback acc (hs.length + extra)
          = .done (hs.reverse.foldl (fun a x => callback x a) acc)) ∧
      IterateLocalHeaps { s with local_heaps_mutex_ := m } recordCall [] (hs.length + extra)
        = .done hs.reverse ∧
      ∀ h, hs.reverse.count h = if h ∈ hs then 1 else 0 := by
  subst hregs
  obtain ⟨s, e1, e2, e3⟩ := registerAll_linked regs s0 [] (by rw [hempty]; rfl)
    List.nodup_nil hnd (fun _ _ => by simp) hfree
  rw [List.append_nil] at e3
  have hlock : s.local_heaps_mutex_.Lock r = some { owner := some r } := by
    simp [Mutex.Lock, e2]
  have hiter : ∀ {υ : Type} (callback : Addr → υ → υ) (acc : υ),
      IterateLocalHeaps { s with local_heaps_mutex_ := { owner := some r } } callback acc
        ((regs.map fun reg => reg.local_heap).length + extra)
        = .done ((regs.map fun reg => reg.local_heap).reverse.foldl
            (fun a x => callback x a) acc) := by
    intro υ callback acc
    exact iterate_of_listFrom { s with local_heaps_mutex_ := { owner := some r } }
      (regs.map fun reg => reg.local_heap).reverse callback acc
      ((regs.map fun reg => reg.local_heap).length + extra) e3.listFrom (by simp) rfl
  refine ⟨s, _, e1, hlock, fun callback acc => hiter callback acc, ?_, ?_⟩
  · rw [hiter recordCall [], foldl_recordCall, List.nil_append]
  · intro h
    rw [List.count_reverse]
    by_cases hm : h ∈ regs.map fun reg => reg.local_heap
    · rw [if_pos hm]; exact List.count_eq_one_of_mem hnd hm
    · rw [if_neg hm]; exact List.count_eq_zero_of_not_mem hm

/-- Witness of C1: three threads register their handles 5, 6 and 7, then the
registry is iterated under the lock of thread 4. -/
theorem iterate_visits_registered_once_witness :
    ∃ s m, registerAll [⟨1, 5, id⟩, ⟨2, 6, id⟩, ⟨3, 7, id⟩]
        (IsolateSafepoint.init (fun _ => ⟨none, none⟩) ()) = .done s ∧
      s.local_heaps_mutex_.Lock 4 = some m ∧
      (∀ (callback : Addr → Nat → Nat) (acc : Nat),
        IterateLocalHeaps { s with local_heaps_mutex_ := m } callback acc ([5, 6, 7].length + 0)
          = .done ([5, 6, 7].reverse.foldl (fun a x => callback x a) acc)) ∧
      IterateLocalHeaps { s with local_heaps_mutex_ := m } recordCall [] ([5, 6, 7].length + 0)
        = .done [5, 6, 7].reverse ∧
      ∀ h, [5, 6, 7].reverse.count h = if h ∈ [5, 6, 7] then 1 else 0 :=
  iterate_visits_registered_once (IsolateSafepoint.init (fun _ => ⟨none, none⟩) ()) 4
    [⟨1, 5, id⟩, ⟨2, 6, id⟩, ⟨3, 7, id⟩] [5, 6, 7] 0 rfl (by decide) rfl rfl

/-- C2: in a well-formed registry with iteration sequence `l` and a free
registry lock, `RemoveLocalHeap(h)` for a registered `h` returns a registry
whose iteration sequence is `l` without `h`, the other handles in their
previous order, and `AddLocalHeap(h)` for an unregistered `h` returns a
registry whose iteration sequence is `h` followed by `l`; in both cases
`IterateLocalHeaps` under the lock visits exactly that sequence. -/
theorem add_remove_iteration_sequence {σ : Type} (s : IsolateSafepoint σ) (l : List Addr)
    (t r : ThreadId) (h : Addr) (cb : σ → σ) (extra : Nat) (hwf : WellFormedWith s l)
    (hfree : s.local_heaps_mutex_.owner = none) :
    ∃ s2 m, (if h ∈ l then RemoveLocalHeap s t h cb else AddLocalHeap s t h cb) = .done s2 ∧
      ListFrom s2.local_heaps s2.local_heaps_head_
        (if h ∈ l then l.filter (fun x => x != h) else h :: l) ∧
      s2.local_heaps_mutex_.Lock r = some m ∧
      IterateLocalHeaps { s2 with local_heaps_mutex_ := m } recordCall [] (l.length + 1 + extra)
        = .done (if h ∈ l then l.filter (fun x => x != h) else h :: l) := by
  by_cases hh : h ∈ l
  · simp only [if_pos hh]
    have hl := (unlink_wellFormedWith h hwf hh).listFrom
    rw [hwf.2.1.erase_eq_filter] at hl
    refine ⟨_, { owner := some r }, RemoveLocalHeap_free s t h cb hfree, hl, rfl, ?_⟩
    refine (iterate_of_listFrom _ _ recordCall [] _ hl ?_ (by rfl)).trans ?_
    · exact le_trans (List.length_filter_le _ _) (by omega)
    · rw [foldl_recordCall, List.nil_append]
  · simp only [if_neg hh]
    have hl := (addMem_linked h (linked_of_wellFormedWith hwf) hwf.2.1 hh).listFrom
    refine ⟨_, { owner := some r }, AddLocalHeap_free s t h cb hfree, hl, rfl, ?_⟩
    refine (iterate_of_listFrom _ _ recordCall [] _ hl ?_ (by rfl)).trans ?_
    · simp only [List.length_cons]
      omega
    · rw [foldl_recordCall, List.nil_append]

theorem exampleRegistry_wellFormed : WellFormedWith exampleRegistry [5, 6, 7] := by
  refine ⟨⟨rfl, rfl, rfl, rfl⟩, by decide, ?_, ?_⟩
  · intro hd e
    have : hd = 5 := (Option.some.inj e).symm
    subst this
    rfl
  · intro x hx n hn
    simp only [List.mem_cons, List.mem_singleton, List.not_mem_nil, or_false] at hx
    rcases hx with rfl | rfl | rfl
    · have : n = 6 := (Option.some.inj hn).symm
      subst this; rfl
    · have : n = 7 := (Option.some.inj hn).symm
      subst this; rfl
    · exact Option.noConfusion (hn : (none : Option Addr) = some n)

/-- Witness of C2: the middle handle 6 is removed from the registry 5, 6, 7,
and the new handle 9 is added to it. -/
theorem add_remove_iteration_sequence_witness :
    (∃ s2 m, RemoveLocalHeap exampleRegistry 1 6 id = .done s2 ∧
      ListFrom s2.local_heaps s2.local_heaps_head_ [5, 7] ∧
      s2.local_heaps_mutex_.Lock 2 = some m ∧
      IterateLocalHeaps { s2 with local_heaps_mutex_ := m } recordCall [] 4 = .done [5, 7]) ∧
    (∃ s2 m, AddLocalHeap exampleRegistry 1 9 id = .done s2 ∧
      ListFrom s2.local_heaps s2.local_heaps_head_ [9, 5, 6, 7] ∧
      s2.local_heaps_mutex_.Lock 2 = some m ∧
      IterateLocalHeaps { s2 with local_heaps_mutex_ := m } recordCall [] 4
        = .done [9, 5, 6, 7]) :=
  ⟨add_remove_iteration_sequence exampleRegistry [5, 6, 7] 1 2 6 id 0
      exampleRegistry_wellFormed rfl,
   add_remove_iteration_sequence exampleRegistry [5, 6, 7] 1 2 9 id 0
      exampleRegistry_wellFormed rfl⟩

/-- C9: doubly-linked well-formedness holds for the empty registry and is
preserved by `AddLocalHeap(h)` for `h` not in the registry and by
`RemoveLocalHeap(h)` for `h` in the registry (`l` is the iteration sequence of
the registry, so `h ∈ l` says that `h` is registered); both calls return and
leave the registry lock free. -/
theorem wellFormed_preserved {σ : Type} (s : IsolateSafepoint σ) (l : List Addr)
    (t : ThreadId) (h : Addr) (cb : σ → σ) (hwf : WellFormedWith s l)
    (hfree : s.local_heaps_mutex_.owner = none) :
    (∀ (mem : Addr → LocalHeap) (e : σ), WellFormed (IsolateSafepoint.init mem e)) ∧
    ∃ s2, (if h ∈ l then RemoveLocalHeap s t h cb else AddLocalHeap s t h cb) = .done s2 ∧
      WellFormed s2 ∧ WellFormedWith s2 (if h ∈ l then l.erase h else h :: l) ∧
      s2.local_heaps_mutex_.owner = none := by
  refine ⟨fun mem e => ⟨[], rfl, List.nodup_nil, fun hd e2 => Option.noConfusion e2,
    fun x hx => absurd hx (List.not_mem_nil x)⟩, ?_⟩
  by_cases hh : h ∈ l
  · simp only [if_pos hh]
    have hw : WellFormedWith { s with
        env := cb s.env
        local_heaps := unlinkMem s.local_heaps h
        local_heaps_head_ := unlinkHead s.local_heaps s.local_heaps_head_ h
        local_heaps_mutex_ := { owner := none } } (l.erase h) :=
      wellFormedWith_of_linked (unlink_wellFormedWith h hwf hh) (hwf.2.1.erase h)
    exact ⟨_, RemoveLocalHeap_free s t h cb hfree, ⟨_, hw⟩, hw, rfl⟩
  · simp only [if_neg hh]
    have hw : WellFormedWith { s with
        env := cb s.env
        local_heaps := addMem s.local_heaps s.local_heaps_head_ h
        local_heaps_head_ := some h
        local_heaps_mutex_ := { owner := none } } (h :: l) :=
      wellFormedWith_of_linked (addMem_linked h (linked_of_wellFormedWith hwf) hwf.2.1 hh)
        (List.nodup_cons.2 ⟨hh, hwf.2.1⟩)
    exact ⟨_, AddLocalHeap_free s t h cb hfree, ⟨_, hw⟩, hw, rfl⟩

/-- Witness of C9: the head 5 is removed from the registry 5, 6, 7, and the
new handle 9 is added to it. -/
theorem wellFormed_preserved_witness :
    (∃ s2, RemoveLocalHeap exampleRegistry 1 5 id = .done s2 ∧ WellFormed s2 ∧
      WellFormedWith s2 [6, 7] ∧ s2.local_heaps_mutex_.owner = none) ∧
    (∃ s2, AddLocalHeap exampleRegistry 1 9 id = .done s2 ∧ WellFormed s2 ∧
      WellFormedWith s2 [9, 5, 6, 7] ∧ s2.local_heaps_mutex_.owner = none) :=
  ⟨(wellFormed_preserved exampleRegistry [5, 6, 7] 1 5 id exampleRegistry_wellFormed rfl).2,
   (wellFormed_preserved exampleRegistry [5, 6, 7] 1 9 id exampleRegistry_wellFormed rfl).2⟩

/-- C10: in a well-formed registry with a free lock, `AddLocalHeap(h)` for an
unregistered `h` followed at once by `RemoveLocalHeap(h)` returns, and the
registry head and the `prev_` / `next_` links of every handle other than `h`
are what they were before the two calls. -/
theorem add_then_remove_restores {σ : Type} (s : IsolateSafepoint σ) (l : List Addr)
    (t1 t2 : ThreadId) (h : Addr) (cb1 cb2 : σ → σ) (hwf : WellFormedWith s l) (hh : h ∉ l)
    (hfree : s.local_heaps_mutex_.owner = none) :
    ∃ s1 s2, AddLocalHeap s t1 h cb1 = .done s1 ∧ RemoveLocalHeap s1 t2 h cb2 = .done s2 ∧
      s2.local_heaps_head_ = s.local_heaps_head_ ∧
      ∀ x, x ≠ h → s2.local_heaps x = s.local_heaps x := by
  refine ⟨_, _, AddLocalHeap_free s t1 h cb1 hfree, RemoveLocalHeap_free _ t2 h cb2 rfl, ?_, ?_⟩
  all_goals
    have hhead : s.local_heaps_head_ ≠ some h := by
      intro e
      cases l with
      | nil => have := hwf.1; simp only [ListFrom] at this; rw [this] at e; cases e
      | cons y ys =>
        have := hwf.1.1
        rw [this] at e
        exact hh (by rw [Option.some.inj e]; simp)
    have hnext : (addMem s.local_heaps s.local_heaps_head_ h h).next_ = s.local_heaps_head_ := by
      rw [addMem_next, if_pos rfl]
    have hprev : (addMem s.local_heaps s.local_heaps_head_ h h).prev_ = none := by
      rw [addMem_prev, if_pos rfl]
    have hne : (addMem s.local_heaps s.local_heaps_head_ h h).next_ ≠ some h := by
      rw [hnext]; exact hhead
  · simp only
    rw [unlinkHead_eq _ _ _ hne, if_pos hprev, hnext]
  · intro x hx
    simp only
    have e1 := unlinkMem_prev (addMem s.local_heaps s.local_heaps_head_ h) h x
    have e2 := unlinkMem_next (addMem s.local_heaps s.local_heaps_head_ h) h x hne
    rw [hnext, hprev, addMem_prev, if_neg hx] at e1
    rw [hprev, if_neg (by simp), addMem_next, if_neg hx] at e2
    have e3 : (unlinkMem (addMem s.local_heaps s.local_heaps_head_ h) h x).prev_
        = (s.local_heaps x).prev_ := by
      rw [e1]
      by_cases hx2 : s.local_heaps_head_ = some x
      · rw [if_pos hx2, hwf.2.2.1 x hx2]
      · rw [if_neg hx2, if_neg hx2]
    cases hm : s.local_heaps x
    cases ha : unlinkMem (addMem s.local_heaps s.local_heaps_head_ h) h x
    simp_all

/-- Witness of C10: handle 9 is added to the registry 5, 6, 7 and removed
again. -/
theorem add_then_remove_restores_witness :
    ∃ s1 s2, AddLocalHeap exampleRegistry 1 9 id = .done s1 ∧
      RemoveLocalHeap s1 2 9 id = .done s2 ∧
      s2.local_heaps_head_ = exampleRegistry.local_heaps_head_ ∧
      ∀ x, x ≠ 9 → s2.local_heaps x = exampleRegistry.local_heaps x :=
  add_then_remove_restores exampleRegistry [5, 6, 7] 1 2 9 id id exampleRegistry_wellFormed
    (by decide) rfl

/-- C4, as stated, fails: with the registry lock held by the pause requester
(thread 1), `AddLocalHeap` called on thread 2 does not end in a fatal
assertion; it waits for the lock. -/
theorem addLocalHeap_during_pause_not_fatal :
    examplePaused.local_heaps_mutex_.owner = some 1 ∧
    AddLocalHeap examplePaused 2 9 id = .blocked ∧
    ¬ (∃ s2, AddLocalHeap examplePaused 2 9 id = .done s2) ∧
    ¬ (AddLocalHeap examplePaused 2 9 id = .fatal) := by
  have h : AddLocalHeap examplePaused 2 9 id = .blocked := rfl
  refine ⟨rfl, h, ?_, ?_⟩
  · rintro ⟨s2, e⟩
    rw [h] at e
    cases e
  · intro e
    rw [h] at e
    cases e

/-- C4, amended: while the registry lock is held by the pause requester `r`,
`AddLocalHeap` called on another thread `t` waits on the registry mutex: it
neither trips an assertion nor returns, so the handle is not inserted while
the lock is held. -/
theorem addLocalHeap_during_pause_blocks {σ : Type} (s : IsolateSafepoint σ) (t r : ThreadId)
    (h : Addr) (cb : σ → σ) (hheld : s.local_heaps_mutex_.owner = some r) (_hne : t ≠ r) :
    AddLocalHeap s t h cb = .blocked := by
  unfold AddLocalHeap Mutex.Lock
  rw [hheld]

/-- Witness of the amended C4: thread 2 registers handle 9 during the pause of
thread 1. -/
theorem addLocalHeap_during_pause_blocks_witness :
    AddLocalHeap examplePaused 2 9 id = .blocked :=
  addLocalHeap_during_pause_blocks examplePaused 2 1 9 id rfl (by decide)

/-! ## Safepoint scopes -/

theorem notifyPark_iterate (n : Nat) : ∀ b : Barrier,
    (Nat.iterate Barrier.NotifyPark n b).stopped_ = b.stopped_ + n ∧
    (Nat.iterate Barrier.NotifyPark n b).armed_ = b.armed_ := by
  induction n with
  | zero => intro b; exact ⟨rfl, rfl⟩
  | succ k ih =>
    intro b
    rw [Function.iterate_succ_apply]
    obtain ⟨h1, h2⟩ := ih b.NotifyPark
    refine ⟨by rw [h1]; simp only [Barrier.NotifyPark]; omega, by rw [h2]; rfl⟩

theorem enterSafepointScope_inv {σ : Type} (s : IsolateSafepoint σ) (t : ThreadId)
    (running : Nat) (hinv : PauseInv s) :
    ∃ s2, EnterSafepointScope s t running = .done s2 ∧
      s2.active_safepoint_scopes_ = s.active_safepoint_scopes_ + 1 ∧ PauseInv s2 := by
  unfold EnterSafepointScope
  by_cases h0 : s.active_safepoint_scopes_ = 0
  · rw [if_pos h0]
    have hfree := hinv.2 h0
    obtain ⟨e1, e2⟩ := notifyPark_iterate running s.barrier_.Arm
    have e3 : (Nat.iterate Barrier.NotifyPark running s.barrier_.Arm).stopped_ = running := by
      rw [e1]; simp [Barrier.Arm]
    simp only [Mutex.Lock, hfree, Barrier.WaitUntilRunningThreadsInSafepoint, e3, if_true]
    refine ⟨_, rfl, rfl, ?_, ?_⟩
    · constructor
      · intro _; exact Nat.succ_pos _
      · intro _; exact e2
    · intro h; simp at h
  · rw [if_neg h0]
    refine ⟨_, rfl, rfl, ?_, ?_⟩
    · simp only
      constructor
      · intro _; omega
      · intro _; exact hinv.1.2 (Nat.pos_of_ne_zero h0)
    · intro h; simp at h

theorem leaveSafepointScope_inv {σ : Type} (s : IsolateSafepoint σ) (hinv : PauseInv s)
    (hpos : 0 < s.active_safepoint_scopes_) :
    ∃ s2, LeaveSafepointScope s = .done s2 ∧
      s2.active_safepoint_scopes_ = s.active_safepoint_scopes_ - 1 ∧ PauseInv s2 := by
  unfold LeaveSafepointScope
  rw [if_neg (Nat.pos_iff_ne_zero.1 hpos)]
  by_cases h1 : s.active_safepoint_scopes_ - 1 = 0
  · simp only [h1, if_true]
    refine ⟨_, rfl, rfl, ?_, fun _ => rfl⟩
    simp [Barrier.Disarm]
  · simp only [h1, if_false]
    refine ⟨_, rfl, rfl, ?_, fun h => absurd h h1⟩
    simp only
    constructor
    · intro _; omega
    · intro _; exact hinv.1.2 hpos

theorem runPauseOps_inv {σ : Type} : ∀ (ops : List PauseOp) (s : IsolateSafepoint σ),
    wellNested s.active_safepoint_scopes_ ops = true → PauseInv s →
    ∃ s2, runPauseOps ops s = .done s2 ∧
      s2.active_safepoint_scopes_ = pauseDepth s.active_safepoint_scopes_ ops ∧ PauseInv s2
  | [], s, _, hinv => ⟨s, rfl, rfl, hinv⟩
  | .request t running :: ops, s, hwn, hinv => by
    obtain ⟨s1, e1, e2, e3⟩ := enterSafepointScope_inv s t running hinv
    have hwn1 : wellNested s1.active_safepoint_scopes_ ops = true := by
      rw [e2]; simpa only [wellNested] using hwn
    obtain ⟨s2, f1, f2, f3⟩ := runPauseOps_inv ops s1 hwn1 e3
    refine ⟨s2, ?_, ?_, f3⟩
    · simp only [runPauseOps, e1]; exact f1
    · rw [f2, e2]; rfl
  | .release :: ops, s, hwn, hinv => by
    simp only [wellNested, Bool.and_eq_true, decide_eq_true_eq] at hwn
    obtain ⟨s1, e1, e2, e3⟩ := leaveSafepointScope_inv s hinv hwn.1
    have hwn1 : wellNested s1.active_safepoint_scopes_ ops = true := by
      rw [e2]; exact hwn.2
    obtain ⟨s2, f1, f2, f3⟩ := runPauseOps_inv ops s1 hwn1 e3
    refine ⟨s2, ?_, ?_, f3⟩
    · simp only [runPauseOps, e1]; exact f1
    · rw [f2, e2]; rfl

theorem wellNested_take : ∀ (ops : List PauseOp) (d k : Nat),
    wellNested d ops = true → wellNested d (ops.take k) = true
  | [], _, _, _ => by simp [wellNested]
  | _ :: _, _, 0, _ => by simp [wellNested]
  | .request _ _ :: ops, d, k + 1, h => by
    simp only [wellNested] at h
    simp only [List.take_succ_cons, wellNested]
    exact wellNested_take ops (d + 1) k h
  | .release :: ops, d, k + 1, h => by
    simp only [wellNested, Bool.and_eq_true, decide_eq_true_eq] at h
    simp only [List.take_succ_cons, wellNested, Bool.and_eq_true, decide_eq_true_eq]
    exact ⟨h.1, wellNested_take ops (d - 1) k h.2⟩

/-- C3: from the initial coordinator state, for every well-nested sequence of
`EnterSafepointScope` / `LeaveSafepointScope` calls, every call returns, and
after each of them (after the first `k` calls, for every `k`) the scope
counter is the number of requests still open and the barrier is armed iff the
counter is positive; so when no request is open any more, after the outermost
release, the counter is 0 and the barrier is disarmed. -/
theorem barrier_armed_iff_scope_active {σ : Type} (mem : Addr → LocalHeap) (e : σ)
    (ops : List PauseOp) (k : Nat) (hwn : wellNested 0 ops = true) :
    ∃ s, runPauseOps (ops.take k) (IsolateSafepoint.init mem e) = .done s ∧
      s.active_safepoint_scopes_ = pauseDepth 0 (ops.take k) ∧
      (s.barrier_.armed_ = true ↔ 0 < s.active_safepoint_scopes_) ∧
      (pauseDepth 0 (ops.take k) = 0 →
        s.active_safepoint_scopes_ = 0 ∧ s.barrier_.armed_ = false) := by
  obtain ⟨s, e1, e2, e3⟩ := runPauseOps_inv (ops.take k) (IsolateSafepoint.init mem e)
    (wellNested_take ops 0 k hwn) ⟨by simp [IsolateSafepoint.init], fun _ => rfl⟩
  refine ⟨s, e1, e2, e3.1, fun h0 => ?_⟩
  have hz : s.active_safepoint_scopes_ = 0 := by rw [e2]; exact h0
  refine ⟨hz, ?_⟩
  cases ha : s.barrier_.armed_ with
  | false => rfl
  | true => have := e3.1.1 ha; omega

/-- Witness of C3: a request, a nested request and the two releases, looked at
after all four calls. -/
theorem barrier_armed_iff_scope_active_witness :
    ∃ s, runPauseOps ([.request 1 2, .request 1 0, .release, .release].take 4)
        (IsolateSafepoint.init exampleHeaps ()) = .done s ∧
      s.active_safepoint_scopes_
        = pauseDepth 0 ([.request 1 2, .request 1 0, .release, .release].take 4) ∧
      (s.barrier_.armed_ = true ↔ 0 < s.active_safepoint_scopes_) ∧
      (pauseDepth 0 ([.request 1 2, .request 1 0, .release, .release].take 4) = 0 →
        s.active_safepoint_scopes_ = 0 ∧ s.barrier_.armed_ = false) :=
  barrier_armed_iff_scope_active exampleHeaps ()
    [.request 1 2, .request 1 0, .release, .release] 4 (by decide)

/-! ## The embedder tracer bridge -/

theorem enterFinalPause_inUse {δ : Type} (b : LocalEmbedderHeapTracer δ)
    (hin : b.InUse = true) :
    b.EnterFinalPause = { b with
      calls := b.calls ++ [.EnterFinalPause (match b.next_finalization_stack_state_ with
        | some st => st
        | none => b.embedder_stack_state_)]
      next_finalization_stack_state_ := none } := by
  unfold LocalEmbedderHeapTracer.EnterFinalPause
  rw [if_pos hin]

theorem finalPauses_default {δ : Type} : ∀ (n : Nat) (b : LocalEmbedderHeapTracer δ),
    b.InUse = true → b.next_finalization_stack_state_ = none →
    (finalPauses n b).calls
      = b.calls ++ List.replicate n (.EnterFinalPause b.embedder_stack_state_)
  | 0, b, _, _ => by simp [finalPauses]
  | n + 1, b, hin, hov => by
    have ih := finalPauses_default n b.EnterFinalPause
      (by rw [enterFinalPause_inUse b hin]; exact hin)
      (by rw [enterFinalPause_inUse b hin])
    simp only [finalPauses]
    rw [ih, enterFinalPause_inUse b hin, hov]
    simp [List.replicate_succ]

/-! ## The unit tests of embedder-tracing-unittest.cc, run on the model -/

/-- Unit test `InUse`. -/
theorem test_InUse : exampleBridge.InUse = true := rfl

/-- Unit test `TracePrologueForwardsMemoryReducingFlag`. -/
theorem test_TracePrologueForwardsMemoryReducingFlag :
    (exampleBridge.TracePrologue .kReduceMemory).calls = [.TracePrologue .kReduceMemory] := rfl

/-- Unit test `TraceEpilogueForwards`. -/
theorem test_TraceEpilogueForwards : exampleBridge.TraceEpilogue.calls = [.TraceEpilogue] := rfl

/-- Unit test `EnterFinalPauseDefaultStackStateUnkown`. -/
theorem test_EnterFinalPauseDefaultStackStateUnkown :
    exampleBridge.EnterFinalPause.calls = [.EnterFinalPause .kMayContainHeapPointers] := rfl

/-- Unit test `EnterFinalPauseStackStateIsForwarded`. -/
theorem test_EnterFinalPauseStackStateIsForwarded :
    (exampleBridge.SetEmbedderStackStateForNextFinalization
      .kNoHeapPointers).EnterFinalPause.calls = [.EnterFinalPause .kNoHeapPointers] := rfl

/-- Unit test `TemporaryEmbedderStackState`. -/
theorem test_TemporaryEmbedderStackState :
    (runScopeOps [.enterScope .kNoHeapPointers, .finalPause, .exitScope]
      (exampleBridge, [])).map (fun st => st.1.calls)
      = some [.EnterFinalPause .kNoHeapPointers] := rfl

/-- Unit test `TemporaryEmbedderStackStateRestores`. -/
theorem test_TemporaryEmbedderStackStateRestores :
    (runScopeOps [.enterScope .kNoHeapPointers, .enterScope .kMayContainHeapPointers,
      .finalPause, .exitScope, .finalPause, .exitScope]
      (exampleBridge, [])).map (fun st => st.1.calls)
      = some [.EnterFinalPause .kMayContainHeapPointers,
          .EnterFinalPause .kNoHeapPointers] := rfl

/-- Unit test `EnterFinalPauseStackStateResets`. -/
theorem test_EnterFinalPauseStackStateResets :
    (exampleBridge.SetEmbedderStackStateForNextFinalization
      .kNoHeapPointers).EnterFinalPause.EnterFinalPause.calls
      = [.EnterFinalPause .kNoHeapPointers, .EnterFinalPause .kMayContainHeapPointers] := rfl

/-- Unit test `RegisterV8ReferencesWithRemoteTracer`. -/
theorem test_RegisterV8ReferencesWithRemoteTracer :
    (ProcessingScope.exit (ProcessingScope.AddWrapperInfoForTesting
      (ProcessingScope.enter exampleBridge) CreateWrapperInfo)).IsRemoteTracingDone.1 = false ∧
    (ProcessingScope.exit (ProcessingScope.AddWrapperInfoForTesting
      (ProcessingScope.enter exampleBridge) CreateWrapperInfo)).IsRemoteTracingDone.2.calls
      = [.RegisterV8References [CreateWrapperInfo], .IsTracingDone] := ⟨rfl, rfl⟩

/-- Unit test `SetRemoteTracerSetsIsolate`. -/
theorem test_SetRemoteTracerSetsIsolate :
    (((LocalEmbedderHeapTracer.create (some 3)).SetRemoteTracer
      (some exampleTracer)).1.remote_tracer_.map fun tr => tr.isolate_) = some (some 3) := rfl

/-- C5: on a bridge with a tracer attached and no stack state scope live (the
current default is `kMayContainHeapPointers`), after
`SetEmbedderStackStateForNextFinalization(st)` the next `EnterFinalPause`
forwards exactly `st`, and each of the `n` following ones, made without a new
override, forwards `kMayContainHeapPointers`. -/
theorem override_consumed_once {δ : Type} (b : LocalEmbedderHeapTracer δ)
    (tr : EmbedderHeapTracer δ) (st : EmbedderStackState) (n : Nat)
    (htr : b.remote_tracer_ = some tr)
    (hdef : b.embedder_stack_state_ = .kMayContainHeapPointers) :
    (finalPauses (n + 1) (b.SetEmbedderStackStateForNextFinalization st)).calls
      = b.calls ++ .EnterFinalPause st ::
          List.replicate n (.EnterFinalPause .kMayContainHeapPointers) := by
  have hin : (b.SetEmbedderStackStateForNextFinalization st).InUse = true := by
    simp [LocalEmbedderHeapTracer.InUse,
      LocalEmbedderHeapTracer.SetEmbedderStackStateForNextFinalization, htr]
  simp only [finalPauses]
  rw [finalPauses_default n _ (by rw [enterFinalPause_inUse _ hin]; exact hin)
    (by rw [enterFinalPause_inUse _ hin]), enterFinalPause_inUse _ hin]
  simp [LocalEmbedderHeapTracer.SetEmbedderStackStateForNextFinalization, hdef]

/-- Witness of C5: the unit test `EnterFinalPauseStackStateResets`, with one
more final pause. -/
theorem override_consumed_once_witness :
    (finalPauses 3
      (exampleBridge.SetEmbedderStackStateForNextFinalization .kNoHeapPointers)).calls
      = [.EnterFinalPause .kNoHeapPointers, .EnterFinalPause .kMayContainHeapPointers,
         .EnterFinalPause .kMayContainHeapPointers] :=
  override_consumed_once exampleBridge { exampleTracer with isolate_ := none }
    .kNoHeapPointers 2 rfl rfl

theorem runScopeOps_forwards {δ : Type} : ∀ (ops : List ScopeOp)
    (b : LocalEmbedderHeapTracer δ) (live : List EmbedderStackStateScope)
    (ls : List EmbedderStackState),
    b.InUse = true → b.next_finalization_stack_state_ = none →
    b.embedder_stack_state_ :: live.map (fun sc => sc.old_stack_state_)
      = ls ++ [.kMayContainHeapPointers] →
    scopesNested ls.length ops = true →
    ∃ b2 live2, runScopeOps ops (b, live) = some (b2, live2) ∧
      b2.calls = b.calls ++ (expectedForwards ops ls).map .EnterFinalPause
  | [], b, live, ls, _, _, _, _ => ⟨b, live, rfl, by simp [expectedForwards]⟩
  | .enterScope x :: ops, b, live, ls, hin, hov, hrel, hwn => by
    simp only [scopesNested] at hwn
    obtain ⟨b2, live2, e1, e2⟩ := runScopeOps_forwards ops
      (EmbedderStackStateScope.enter b x).2 ((EmbedderStackStateScope.enter b x).1 :: live)
      (x :: ls) hin hov (by simp [EmbedderStackStateScope.enter, ← hrel]) hwn
    exact ⟨b2, live2, by simp only [runScopeOps]; exact e1, e2⟩
  | .exitScope :: ops, b, live, ls, hin, hov, hrel, hwn => by
    simp only [scopesNested, Bool.and_eq_true, decide_eq_true_eq] at hwn
    cases ls with
    | nil => exact absurd hwn.1 (by simp)
    | cons y ls2 =>
      cases live with
      | nil =>
        simp only [List.map_nil, List.cons_append, List.cons.injEq] at hrel
        exact absurd hrel.2 (by simp)
      | cons sc rest =>
        simp only [List.map_cons, List.cons_append, List.cons.injEq] at hrel
        obtain ⟨b2, live2, e1, e2⟩ := runScopeOps_forwards ops (sc.exit b) rest ls2 hin hov
          (by simp only [EmbedderStackStateScope.exit]; exact hrel.2)
          (by simpa using hwn.2)
        exact ⟨b2, live2, by simp only [runScopeOps]; exact e1, e2⟩
  | .finalPause :: ops, b, live, ls, hin, hov, hrel, hwn => by
    simp only [scopesNested] at hwn
    have hb := enterFinalPause_inUse b hin
    rw [hov] at hb
    simp only at hb
    obtain ⟨b2, live2, e1, e2⟩ := runScopeOps_forwards ops b.EnterFinalPause live ls
      (by rw [hb]; exact hin) (by rw [hb]) (by rw [hb]; exact hrel) hwn
    refine ⟨b2, live2, by simp only [runScopeOps]; exact e1, ?_⟩
    have hhead : ls.headD .kMayContainHeapPointers = b.embedder_stack_state_ := by
      cases ls with
      | nil => simp only [List.nil_append, List.cons.injEq] at hrel; simp [hrel.1]
      | cons y ys => simp only [List.cons_append, List.cons.injEq] at hrel; simp [hrel.1]
    rw [e2, hb]
    simp only [expectedForwards, hhead, List.map_cons, List.append_assoc, List.singleton_append]

/-- C6: on a bridge with a tracer attached, no one-shot override pending and
no scope live yet, for every well-nested program of scope entries, scope
exits and `EnterFinalPause` calls (any nesting depth, any states), the program
runs to its end and each `EnterFinalPause` forwards the state of the
innermost scope live at that point, `kMayContainHeapPointers` when none is
live. -/
theorem scopes_forward_innermost {δ : Type} (b : LocalEmbedderHeapTracer δ)
    (tr : EmbedderHeapTracer δ) (ops : List ScopeOp) (htr : b.remote_tracer_ = some tr)
    (hov : b.next_finalization_stack_state_ = none)
    (hdef : b.embedder_stack_state_ = .kMayContainHeapPointers)
    (hwn : scopesNested 0 ops = true) :
    ∃ b2 live2, runScopeOps ops (b, []) = some (b2, live2) ∧
      b2.calls = b.calls ++ (expectedForwards ops []).map .EnterFinalPause :=
  runScopeOps_forwards ops b [] [] (by simp [LocalEmbedderHeapTracer.InUse, htr]) hov
    (by simp [hdef]) hwn

/-- Witness of C6: the unit test `TemporaryEmbedderStackStateRestores`, with a
final pause after the outer scope as well. -/
theorem scopes_forward_innermost_witness :
    ∃ b2 live2, runScopeOps
        [.enterScope .kNoHeapPointers, .enterScope .kMayContainHeapPointers, .finalPause,
         .exitScope, .finalPause, .exitScope, .finalPause] (exampleBridge, [])
        = some (b2, live2) ∧
      b2.calls = exampleBridge.calls ++
        [.EnterFinalPause .kMayContainHeapPointers, .EnterFinalPause .kNoHeapPointers,
         .EnterFinalPause .kMayContainHeapPointers] :=
  scopes_forward_innermost exampleBridge { exampleTracer with isolate_ := none }
    [.enterScope .kNoHeapPointers, .enterScope .kMayContainHeapPointers, .finalPause,
     .exitScope, .finalPause, .exitScope, .finalPause] rfl rfl rfl (by decide)

theorem addWrapperInfo_foldl {δ : Type} : ∀ (infos : List WrapperInfo)
    (st : LocalEmbedderHeapTracer δ × ProcessingScope),
    (infos.foldl ProcessingScope.AddWrapperInfoForTesting st).1 = st.1 ∧
    (infos.foldl ProcessingScope.AddWrapperInfoForTesting st).2.wrapper_cache_
      = st.2.wrapper_cache_ ++ infos
  | [], st => by simp
  | x :: xs, st => by
    obtain ⟨h1, h2⟩ := addWrapperInfo_foldl xs (ProcessingScope.AddWrapperInfoForTesting st x)
    simp only [List.foldl_cons]
    rw [h1, h2]
    simp [ProcessingScope.AddWrapperInfoForTesting]

/-- C7: a `ProcessingScope` on a bridge with a tracer attached that receives
the wrapper infos `infos` (so `k = infos.length`) has forwarded nothing to the
tracer after any number `j` of those calls, and at scope exit has issued
exactly one `RegisterV8References` call with all the pairs in insertion order
when `k ≥ 1`, and no call when `k = 0`. -/
theorem processingScope_flushes_once {δ : Type} (b : LocalEmbedderHeapTracer δ)
    (tr : EmbedderHeapTracer δ) (infos : List WrapperInfo) (j : Nat)
    (htr : b.remote_tracer_ = some tr) :
    ((infos.take j).foldl ProcessingScope.AddWrapperInfoForTesting
        (ProcessingScope.enter b)).1.calls = b.calls ∧
    (ProcessingScope.exit
        (infos.foldl ProcessingScope.AddWrapperInfoForTesting (ProcessingScope.enter b))).calls
      = b.calls ++ (if infos.length = 0 then [] else [.RegisterV8References infos]) := by
  obtain ⟨h1, _⟩ := addWrapperInfo_foldl (infos.take j) (ProcessingScope.enter b)
  obtain ⟨h3, h4⟩ := addWrapperInfo_foldl infos (ProcessingScope.enter b)
  refine ⟨by rw [h1]; rfl, ?_⟩
  have hin : b.InUse = true := by simp [LocalEmbedderHeapTracer.InUse, htr]
  unfold ProcessingScope.exit
  rw [h3, h4]
  simp only [ProcessingScope.enter, List.nil_append, hin, Bool.true_and]
  cases infos with
  | nil => simp
  | cons x xs => simp

/-- Witness of C7: the unit test `RegisterV8ReferencesWithRemoteTracer`, with
two wrapper infos. -/
theorem processingScope_flushes_once_witness :
    (([CreateWrapperInfo, (some 1, some 2)].take 1).foldl
        ProcessingScope.AddWrapperInfoForTesting (ProcessingScope.enter exampleBridge)).1.calls
      = exampleBridge.calls ∧
    (ProcessingScope.exit
        ([CreateWrapperInfo, (some 1, some 2)].foldl ProcessingScope.AddWrapperInfoForTesting
          (ProcessingScope.enter exampleBridge))).calls
      = exampleBridge.calls ++ [.RegisterV8References [CreateWrapperInfo, (some 1, some 2)]] :=
  processingScope_flushes_once exampleBridge { exampleTracer with isolate_ := none }
    [CreateWrapperInfo, (some 1, some 2)] 1 rfl

/-- C8: on a bridge with no tracer attached, `InUse()` is false, `Trace(d)`
and `IsRemoteTracingDone()` return true, and `TracePrologue`, `TraceEpilogue`
and `EnterFinalPause` return leaving the bridge, and with it the list of calls
made to a tracer, as it was. -/
theorem no_tracer_is_noop {δ : Type} (b : LocalEmbedderHeapTracer δ) (d : δ)
    (flags : TraceFlags) (hno : b.remote_tracer_ = none) :
    b.InUse = false ∧ b.Trace d = (true, b) ∧ b.IsRemoteTracingDone = (true, b) ∧
    b.TracePrologue flags = b ∧ b.TraceEpilogue = b ∧ b.EnterFinalPause = b := by
  have hin : b.InUse = false := by simp [LocalEmbedderHeapTracer.InUse, hno]
  refine ⟨hin, ?_, ?_, ?_, ?_, ?_⟩
  · simp [LocalEmbedderHeapTracer.Trace, hno]
  · simp [LocalEmbedderHeapTracer.IsRemoteTracingDone, hno]
  · simp [LocalEmbedderHeapTracer.TracePrologue, hin]
  · simp [LocalEmbedderHeapTracer.TraceEpilogue, hin]
  · simp [LocalEmbedderHeapTracer.EnterFinalPause, hin]

/-- Witness of C8: the unit test `NoRemoteTracer`. -/
theorem no_tracer_is_noop_witness :
    (LocalEmbedderHeapTracer.create none : LocalEmbedderHeapTracer Nat).InUse = false ∧
    (LocalEmbedderHeapTracer.create none : LocalEmbedderHeapTracer Nat).Trace 0
      = (true, LocalEmbedderHeapTracer.create none) ∧
    (LocalEmbedderHeapTracer.create none : LocalEmbedderHeapTracer Nat).IsRemoteTracingDone
      = (true, LocalEmbedderHeapTracer.create none) ∧
    (LocalEmbedderHeapTracer.create none : LocalEmbedderHeapTracer Nat).TracePrologue .kNoFlags
      = LocalEmbedderHeapTracer.create none ∧
    (LocalEmbedderHeapTracer.create none : LocalEmbedderHeapTracer Nat).TraceEpilogue
      = LocalEmbedderHeapTracer.create none ∧
    (LocalEmbedderHeapTracer.create none : LocalEmbedderHeapTracer Nat).EnterFinalPause
      = LocalEmbedderHeapTracer.create none :=
  no_tracer_is_noop (LocalEmbedderHeapTracer.create none) 0 .kNoFlags rfl

end V8
